import Mathlib

/-!
# Verification of `mmdet3d/evaluation/metrics/instance_seg_metric.py`

A shallow embedding of the `InstanceSegMetric` adapter class and theorems about
its observable contract.

The class has three operations:
* `__init__(dataset_meta, dist_backend, collect_device, prefix, **kwargs)` —
  emits deprecation warnings and delegates to the base metric constructor;
* `process(data_batch, data_samples)` — converts each sample's `pred_pts_seg`
  and `eval_ann_info` mappings to host-memory arrays and accumulates the
  (prediction, ground truth) pairs via the base metric's `add`;
* `evaluate(*args, **kwargs)` — computes the metrics report, renders an ASCII
  table to the logger, resets the accumulated results, returns the raw report.

Array-like values are modelled by `TensorLike`: a payload of integers together
with the current device and flags recording which of the methods used by the
source (`clone`, `cpu`, `to`, `numpy`) the value actually supports.  A method
call on a value that lacks the method is an `AttributeError`; every fallible
step is therefore embedded in `Option`, with `none` standing for a raised
exception propagating out of `process`.
-/

/-- A host-memory numeric array: the result of a `.numpy()` call. -/
structure NDArray where
  data : List Int
deriving DecidableEq, Repr

/-- An array-like value as consumed by `process`: the payload, the device it
currently resides on, and which of the four methods used by the source code it
supports.  A real torch tensor has all four; other array-like values may lack
some (the source probes `hasattr(v, 'to')` for exactly this reason). -/
structure TensorLike where
  data : List Int
  device : String
  hasTo : Bool
  hasCpu : Bool
  hasClone : Bool
  hasNumpy : Bool
deriving DecidableEq, Repr

/-- Embedding of `v.clone()`: a copy of the value (payload unchanged); raises if the value
has no `clone` method. -/
def TensorLike.clone (v : TensorLike) : Option TensorLike :=
  if v.hasClone then some v else none

/-- Embedding of `v.cpu()`: move the value to host memory; raises if the value has no `cpu`
method. -/
def TensorLike.cpu (v : TensorLike) : Option TensorLike :=
  if v.hasCpu then some { v with device := "cpu" } else none

/-- Embedding of `v.to(d)`: move the value to device `d`; raises if the value has no `to`
method (the device-transfer capability the source probes with `hasattr`). -/
def TensorLike.to (v : TensorLike) (d : String) : Option TensorLike :=
  if v.hasTo then some { v with device := d } else none

/-- Embedding of `v.numpy()`: expose the payload as a host-memory array; raises if the value
has no `numpy` method or still resides on an accelerator device. -/
def TensorLike.numpy (v : TensorLike) : Option NDArray :=
  if v.hasNumpy ∧ v.device = "cpu" then some ⟨v.data⟩ else none

/-- The conversion applied by the two dict comprehensions in `process`
(lines 56–63): `v.clone().cpu().numpy()`. -/
def comprehensionConvert (v : TensorLike) : Option NDArray :=
  (v.clone.bind TensorLike.cpu).bind TensorLike.numpy

/-- The conversion applied by the second loop in `process` (lines 64–68):
`v.to('cpu').clone().numpy()` when `hasattr(v, 'to')`, else
`v.clone().numpy()`. -/
def capabilityConvert (v : TensorLike) : Option NDArray :=
  if v.hasTo then ((v.to ("cpu")).bind TensorLike.clone).bind TensorLike.numpy
  else v.clone.bind TensorLike.numpy

/-- A Python dict comprehension `{k: f(v) for k, v in d.items()}` over an
association list: converts every value, propagating the first exception. -/
def convDict (f : TensorLike → Option NDArray) :
    List (String × TensorLike) → Option (List (String × NDArray))
  | [] => some []
  | kv :: rest =>
    match f kv.2, convDict f rest with
    | some a, some d => some ((kv.1, a) :: d)
    | _, _ => none

/-- A Python dict assignment `d[k] = a` on an association list whose keys are
unique: the entry for `k` is replaced in place (we replace every occurrence,
which agrees with Python on the duplicate-free lists that model dicts). -/
def setKey (d : List (String × NDArray)) (k : String) (a : NDArray) :
    List (String × NDArray) :=
  d.map fun kv => if kv.1 = k then (k, a) else kv

/-- The second loop of `process` (lines 64–68): for every `k, v` in `pred_3d`,
overwrite `cpu_pred_3d[k]` with the capability-aware conversion of `v`,
propagating the first exception. -/
def overwriteLoop (d : List (String × NDArray)) :
    List (String × TensorLike) → Option (List (String × NDArray))
  | [] => some d
  | kv :: rest =>
    match capabilityConvert kv.2 with
    | some a => overwriteLoop (setKey d kv.1 a) rest
    | none => none

/-- One element of `data_samples`: a record with the `pred_pts_seg` and
`eval_ann_info` mappings the source reads (lines 54–55). -/
structure Sample where
  pred_pts_seg : List (String × TensorLike)
  eval_ann_info : List (String × TensorLike)
deriving DecidableEq, Repr

/-- The per-sample body of `process` (lines 54–68): build `cpu_pred_3d` and
`cpu_eval_ann_info` by comprehension, then overwrite every entry of
`cpu_pred_3d` with the capability-aware conversion; yields the
(converted prediction, converted ground truth) pair. -/
def processSample (s : Sample) : Option
    (List (String × NDArray) × List (String × NDArray)) :=
  match convDict comprehensionConvert s.pred_pts_seg,
        convDict comprehensionConvert s.eval_ann_info with
  | some cpu_pred_3d, some cpu_eval_ann_info =>
    match overwriteLoop cpu_pred_3d s.pred_pts_seg with
    | some cpu_pred_final => some (cpu_pred_final, cpu_eval_ann_info)
    | none => none
  | _, _ => none

/-- The variant of the per-sample conversion that performs only the
capability-aware conversion of `pred_pts_seg` (the refinement target named by
the spec's design note: adopt the second loop's policy alone and drop the
first comprehension). -/
def processSampleCapOnly (s : Sample) : Option
    (List (String × NDArray) × List (String × NDArray)) :=
  match convDict capabilityConvert s.pred_pts_seg,
        convDict comprehensionConvert s.eval_ann_info with
  | some cpu_pred_final, some cpu_eval_ann_info =>
    some (cpu_pred_final, cpu_eval_ann_info)
  | _, _ => none

/-- Convert every sample of `data_samples` in order, building the `pred` and
`gt` lists of the loop in lines 51–70 (as a list of pairs); the first
exception aborts the whole call before `self.add` runs. -/
def convertSamples :
    List Sample → Option (List ((List (String × NDArray)) × (List (String × NDArray))))
  | [] => some []
  | s :: rest =>
    match processSample s, convertSamples rest with
    | some p, some l => some (p :: l)
    | _, _ => none

/-- The accumulation state owned by the base metric: the ordered sequence of
(converted prediction, converted ground truth) pairs. -/
structure InstanceSegState where
  results : List ((List (String × NDArray)) × (List (String × NDArray)))
deriving DecidableEq, Repr

/-- Modelled from the spec: the base metric's `add(predictions, groundtruths)`
(mmeval's `InstanceSeg.add`, not part of this repository) appends the
(converted prediction, converted ground truth) pairs, in order, to the
Accumulated Results buffer. -/
def InstanceSegState.add (st : InstanceSegState)
    (pred gt : List (List (String × NDArray))) : InstanceSegState :=
  ⟨st.results ++ pred.zip gt⟩

/-- Modelled from the spec: the base metric's `reset()` (mmeval, not part of
this repository) clears the Accumulated Results buffer. -/
def InstanceSegState.reset (_st : InstanceSegState) : InstanceSegState :=
  ⟨[]⟩

/-- The `data_batch` argument of `process`: a batch record from the dataloader,
never inspected by this layer. -/
structure DataBatch where
  fields : List (String × TensorLike)
deriving DecidableEq, Repr

/-- Embedding of `InstanceSegMetric.process(data_batch, data_samples)`
(lines 39–71):
convert every sample and hand the `pred` and `gt` lists to `self.add`;
`none` models an exception propagating out (state unchanged). -/
def process (st : InstanceSegState) (data_batch : DataBatch)
    (data_samples : List Sample) : Option InstanceSegState :=
  (convertSamples data_samples).map fun l =>
    st.add (l.map Prod.fst) (l.map Prod.snd)

/-! ## The constructor (lines 22–37) -/

/-- Dataset meta information: an opaque configuration mapping, forwarded
unchanged. -/
structure DatasetMeta where
  entries : List (String × String)
deriving DecidableEq, Repr

/-- The warning message emitted for a deprecated `collect_device` argument
(lines 29–32). -/
def cdWarnMsg : String :=
  "DeprecationWarning: The `collect_device` parameter of `InstanceSegMetric` is deprecated, use `dist_backend instead."

/-- The warning message emitted for a deprecated `prefix` argument
(lines 34–35). -/
def pfxWarnMsg : String :=
  "DeprecationWarning: The `prefix` parameter of `InstanceSegMetric` is deprecated."

/-- The delegation `super().__init__(dataset_meta=dataset_meta,
dist_backend=dist_backend, **kwargs)` (lines 36–37): what the base metric
constructor receives — `dataset_meta`, `dist_backend`, and the expansion of
the extra keyword arguments. -/
structure BaseInitCall where
  dataset_meta : DatasetMeta
  dist_backend : Option String
  extraOptions : List (String × String)
deriving DecidableEq, Repr

/-- The observable outcome of `InstanceSegMetric.__init__`: the warnings
emitted, in order, and the delegated base constructor call. -/
structure InitResult where
  warnings : List String
  forwarded : BaseInitCall
deriving DecidableEq, Repr

/-- Embedding of `InstanceSegMetric.__init__` (lines 22–37).  `pfx` stands for the Python parameter
`prefix`; `kwargs` is the association list of extra keyword arguments. -/
def InstanceSegMetric.init (dataset_meta : DatasetMeta)
    (dist_backend collect_device pfx : Option String)
    (kwargs : List (String × String)) : InitResult :=
  ⟨(if collect_device.isSome then [cdWarnMsg] else []) ++
      (if pfx.isSome then [pfxWarnMsg] else []),
    ⟨dataset_meta, dist_backend, kwargs⟩⟩

/-! ## `evaluate` and the table rendering (lines 73–92) -/

/-- The per-class entry of the Metrics Report: AP at IoU 0.25, AP at IoU 0.50,
and overall AP.  AP values (floats in the source) are modelled as exact
rationals. -/
structure ClassAP where
  ap25 : ℚ
  ap50 : ℚ
  ap : ℚ
deriving DecidableEq, Repr

/-- The Metrics Report returned by the base metric's `compute`: the per-class
mapping and the dataset-wide aggregates `all_ap_25%`, `all_ap_50%`,
`all_ap`. -/
structure MetricsReport where
  classes : List (String × ClassAP)
  all_ap_25 : ℚ
  all_ap_50 : ℚ
  all_ap : ℚ
deriving DecidableEq, Repr

/-- The decimal digit character for `n % 10`. -/
def digitChar : Nat → Char
  | 0 => '0'
  | 1 => '1'
  | 2 => '2'
  | 3 => '3'
  | 4 => '4'
  | 5 => '5'
  | 6 => '6'
  | 7 => '7'
  | 8 => '8'
  | 9 => '9'
  | _ => '?'

/-- The four-digit zero-padded decimal rendering of `n % 10000`: the
fractional part produced by the `:.4f` format. -/
def pad4 (n : Nat) : String :=
  String.mk [digitChar (n / 1000 % 10), digitChar (n / 100 % 10),
    digitChar (n / 10 % 10), digitChar (n % 10)]

/-- The decimal rendering of a natural number, with a structural fuel
argument (`n + 1` is always enough fuel). -/
def natDigitsAux : Nat → Nat → List Char
  | _, 0 => []
  | n, fuel + 1 =>
    if n < 10 then [digitChar n]
    else natDigitsAux (n / 10) fuel ++ [digitChar (n % 10)]

/-- The decimal rendering of a natural number. -/
def natDigits (n : Nat) : List Char :=
  natDigitsAux n (n + 1)

/-- Python's `f'{ap:.4f}'` (lines 83 and 85), modelled over exact rationals:
round to four fractional digits and render with exactly four digits after the
decimal point. -/
def format4 (q : ℚ) : String :=
  (if ⌊q * 10000 + 1 / 2⌋ < 0 then "-" else "") ++
    String.mk (natDigits (⌊q * 10000 + 1 / 2⌋.natAbs / 10000)) ++ "." ++
    pad4 (⌊q * 10000 + 1 / 2⌋.natAbs % 10000)

/-- The characters after the last decimal point of a rendered number: the
digits the `:.4f` format places after the point. -/
def afterLastDot (l : List Char) : List Char :=
  (l.reverse.takeWhile fun c => c ≠ '.').reverse

/-- The header row of the rendered table (line 79). -/
def tableHeader : List String :=
  ["classes", "AP_0.25", "AP_0.50", "AP"]

/-- One body row of the rendered table (lines 81–83): the class label and its
three AP values, each formatted to four decimal places. -/
def classRow (kv : String × ClassAP) : List String :=
  [kv.1, format4 kv.2.ap25, format4 kv.2.ap50, format4 kv.2.ap]

/-- The footer row of the rendered table (lines 84–85): `Overall` and the
dataset-wide AP values, each formatted to four decimal places. -/
def footerRow (m : MetricsReport) : List String :=
  ["Overall", format4 m.all_ap_25, format4 m.all_ap_50, format4 m.all_ap]

/-- Modelled from the spec: the `terminaltables.AsciiTable` object (an
external library), reduced to what the source manipulates — the row data and
the three flags that decide where horizontal borders are drawn between rows.
Per the library's behaviour, `inner_heading_row_border` (on by default) draws
a border after the first row, `inner_footing_row_border` (off by default, set
by line 87) draws a border before the last row, and `inner_row_border` (off by
default, never touched by the source) draws a border between every pair of
rows. -/
structure AsciiTable where
  table_data : List (List String)
  inner_heading_row_border : Bool := true
  inner_footing_row_border : Bool := false
  inner_row_border : Bool := false
deriving DecidableEq, Repr

/-- Whether the rendered table has a horizontal border between row `i` and row
`i + 1` of `table_data`. -/
def AsciiTable.borderBetween (t : AsciiTable) (i : Nat) : Bool :=
  t.inner_row_border ||
    (t.inner_heading_row_border && i == 0) ||
    (t.inner_footing_row_border && i + 2 == t.table_data.length)

/-- One rendered table line for a row. -/
def renderRow (r : List String) : String :=
  "| " ++ String.intercalate (" | ") r ++ " |"

/-- Modelled from the spec: the lines of the rendered table body — one line
per row, with a horizontal border line inserted between consecutive rows
exactly where `borderBetween` dictates (column sizing and the outer frame of
the external renderer are abstracted away). -/
def linesOf (t : AsciiTable) : List (List String) → Nat → List String
  | [], _ => []
  | [r], _ => [renderRow r]
  | r :: rs, i =>
    renderRow r ::
      ((if t.borderBetween i then ["+--------+"] else []) ++ linesOf t rs (i + 1))

/-- Modelled from the spec: the `table.table` rendered string (line 88). -/
def AsciiTable.table (t : AsciiTable) : String :=
  String.intercalate ("\n") (linesOf t t.table_data 0)

/-- Lines 79–87: the `AsciiTable` the source builds from a Metrics Report —
`[header] + rows + [footer]` with `inner_footing_row_border = True`. -/
def buildTable (m : MetricsReport) : AsciiTable :=
  { table_data := [tableHeader] ++ m.classes.map classRow ++ [footerRow m],
    inner_footing_row_border := true }

/-- Embedding of `InstanceSegMetric.evaluate(*args, **kwargs)`
(lines 73–92), parameterised
by the base metric's `compute` (mmeval, external: modelled as an arbitrary
function of the accumulated results and the forwarded pass-through arguments,
of arbitrary type `α`).  Returns the raw Metrics Report, the state after
`self.reset()`, and the string written to the logger by `print_log` — the
rendered table preceded by a newline. -/
def evaluate {α : Type} (computeFn :
    List ((List (String × NDArray)) × (List (String × NDArray))) → α → MetricsReport)
    (st : InstanceSegState) (args : α) :
    MetricsReport × InstanceSegState × String :=
  let metrics := computeFn st.results args
  (metrics, st.reset, "\n" ++ (buildTable metrics).table)

/-!
## A store-passing embedding of `process`

For the frame property (no mutation of inputs, accumulated arrays are
independent copies) the same source lines are embedded a second time with an
explicit store: tensors and arrays are references into a heap of payload
cells.  `clone` allocates a fresh cell holding a copy of the payload; `cpu`
and `to` keep the cell (the worst case for aliasing: torch returns `self`
when the tensor is already on the target device); `numpy` shares the cell
(the returned array aliases the tensor's memory).
-/

/-- The store: cell `i` holds the payload `h[i]`. -/
abbrev Heap := List (List Int)

/-- An array-like value as a reference into the heap. -/
structure HTensor where
  cell : Nat
  device : String
  hasTo : Bool
  hasCpu : Bool
  hasClone : Bool
  hasNumpy : Bool
deriving DecidableEq, Repr

/-- A host array as a reference into the heap (`.numpy()` shares memory). -/
structure HArray where
  cell : Nat
deriving DecidableEq, Repr

/-- Embedding of `v.clone()` over the store: allocate a fresh cell with a copy of the
payload. -/
def HTensor.clone (h : Heap) (v : HTensor) : Option (Heap × HTensor) :=
  if v.hasClone then
    match h[v.cell]? with
    | some payload => some (h ++ [payload], { v with cell := h.length })
    | none => none
  else none

/-- Embedding of `v.cpu()` over the store: same cell (worst case: the value is returned
as-is when already resident on the host). -/
def HTensor.cpu (h : Heap) (v : HTensor) : Option (Heap × HTensor) :=
  if v.hasCpu then some (h, { v with device := "cpu" }) else none

/-- Embedding of `v.to(d)` over the store: same cell (worst case, as for `cpu`). -/
def HTensor.toDev (h : Heap) (v : HTensor) (d : String) : Option (Heap × HTensor) :=
  if v.hasTo then some (h, { v with device := d }) else none

/-- Embedding of `v.numpy()` over the store: the array shares the tensor's cell. -/
def HTensor.numpy (h : Heap) (v : HTensor) : Option (Heap × HArray) :=
  if v.hasNumpy ∧ v.device = "cpu" then some (h, ⟨v.cell⟩) else none

/-- Embedding of `v.clone().cpu().numpy()` over the store (the dict comprehensions,
lines 56–63). -/
def comprehensionConvertH (h : Heap) (v : HTensor) : Option (Heap × HArray) :=
  match HTensor.clone h v with
  | some (h1, a) =>
    match HTensor.cpu h1 a with
    | some (h2, b) => HTensor.numpy h2 b
    | none => none
  | none => none

/-- The capability-aware conversion over the store (the second loop,
lines 64–68). -/
def capabilityConvertH (h : Heap) (v : HTensor) : Option (Heap × HArray) :=
  if v.hasTo then
    match HTensor.toDev h v ("cpu") with
    | some (h1, a) =>
      match HTensor.clone h1 a with
      | some (h2, b) => HTensor.numpy h2 b
      | none => none
    | none => none
  else
    match HTensor.clone h v with
    | some (h1, a) => HTensor.numpy h1 a
    | none => none

/-- The dict comprehension over the store, threading the heap left to
right. -/
def convDictH (h : Heap) :
    List (String × HTensor) → Option (Heap × List (String × HArray))
  | [] => some (h, [])
  | kv :: rest =>
    match comprehensionConvertH h kv.2 with
    | some (h1, a) =>
      match convDictH h1 rest with
      | some (h2, d) => some (h2, (kv.1, a) :: d)
      | none => none
    | none => none

/-- A dict assignment over heap-valued arrays (as `setKey`). -/
def setKeyH (d : List (String × HArray)) (k : String) (a : HArray) :
    List (String × HArray) :=
  d.map fun kv => if kv.1 = k then (k, a) else kv

/-- The second loop (lines 64–68) over the store. -/
def overwriteLoopH (h : Heap) (d : List (String × HArray)) :
    List (String × HTensor) → Option (Heap × List (String × HArray))
  | [] => some (h, d)
  | kv :: rest =>
    match capabilityConvertH h kv.2 with
    | some (h1, a) => overwriteLoopH h1 (setKeyH d kv.1 a) rest
    | none => none

/-- A sample over the store. -/
structure HSample where
  pred_pts_seg : List (String × HTensor)
  eval_ann_info : List (String × HTensor)
deriving DecidableEq, Repr

/-- The per-sample body of `process` (lines 54–68) over the store. -/
def processSampleH (h : Heap) (s : HSample) :
    Option (Heap × (List (String × HArray) × List (String × HArray))) :=
  match convDictH h s.pred_pts_seg with
  | some (h1, cpu_pred_3d) =>
    match convDictH h1 s.eval_ann_info with
    | some (h2, cpu_eval_ann_info) =>
      match overwriteLoopH h2 cpu_pred_3d s.pred_pts_seg with
      | some (h3, cpu_pred_final) => some (h3, (cpu_pred_final, cpu_eval_ann_info))
      | none => none
    | none => none
  | none => none

/-- The loop of lines 51–70 over the store. -/
def convertSamplesH (h : Heap) :
    List HSample → Option (Heap × List ((List (String × HArray)) × (List (String × HArray))))
  | [] => some (h, [])
  | s :: rest =>
    match processSampleH h s with
    | some (h1, p) =>
      match convertSamplesH h1 rest with
      | some (h2, l) => some (h2, p :: l)
      | none => none
    | none => none

/-- The accumulation state over the store. -/
structure HState where
  results : List ((List (String × HArray)) × (List (String × HArray)))
deriving DecidableEq, Repr

/-- Embedding of `process` (lines 39–71) over the store: convert every sample, then append
the (prediction, ground truth) pairs to the Accumulated Results (the base
metric's `add`, modelled from the spec as in `InstanceSegState.add`). -/
def processH (h : Heap) (st : HState) (data_batch : DataBatch)
    (data_samples : List HSample) : Option (Heap × HState) :=
  (convertSamplesH h data_samples).map fun r =>
    (r.1, ⟨st.results ++ (r.2.map Prod.fst).zip (r.2.map Prod.snd)⟩)

/-! ## Helper lemmas -/

theorem convertSamples_map_some (samples : List Sample)
    (l : List ((List (String × NDArray)) × (List (String × NDArray))))
    (h : convertSamples samples = some l) :
    samples.map processSample = l.map some := by
  induction samples generalizing l with
  | nil =>
    simp only [convertSamples] at h
    cases h
    rfl
  | cons s rest ih =>
    simp only [convertSamples] at h
    cases hp : processSample s with
    | none => rw [hp] at h; exact absurd h (by simp)
    | some p =>
      rw [hp] at h
      cases hc : convertSamples rest with
      | none => rw [hc] at h; exact absurd h (by simp)
      | some l' =>
        rw [hc] at h
        cases h
        simp [List.map_cons, hp, ih l' hc]

theorem zip_unzip_pairs {α β : Type} (l : List (α × β)) :
    (l.map Prod.fst).zip (l.map Prod.snd) = l := by
  rw [List.zip_map']
  simp

theorem comprehensionConvert_eq (v : TensorLike) (h1 : v.hasClone = true)
    (h2 : v.hasCpu = true) (h3 : v.hasNumpy = true) :
    comprehensionConvert v = some ⟨v.data⟩ := by
  simp [comprehensionConvert, TensorLike.clone, TensorLike.cpu,
    TensorLike.numpy, h1, h2, h3]

theorem capabilityConvert_eq (v : TensorLike) (h1 : v.hasClone = true)
    (h3 : v.hasNumpy = true) (h4 : v.hasTo = true ∨ v.device = "cpu") :
    capabilityConvert v = some ⟨v.data⟩ := by
  by_cases h5 : v.hasTo = true
  · simp [capabilityConvert, TensorLike.to, TensorLike.clone,
      TensorLike.numpy, h1, h3, h5]
  · rcases h4 with h4 | h4
    · exact absurd h4 h5
    · simp [capabilityConvert, TensorLike.to, TensorLike.clone,
        TensorLike.numpy, h1, h3, h4, h5]

theorem convDict_keys (f : TensorLike → Option NDArray)
    (l : List (String × TensorLike)) (d : List (String × NDArray))
    (h : convDict f l = some d) : d.map Prod.fst = l.map Prod.fst := by
  induction l generalizing d with
  | nil => simp only [convDict] at h; cases h; rfl
  | cons kv rest ih =>
    simp only [convDict] at h
    cases ha : f kv.2 with
    | none => rw [ha] at h; exact absurd h (by simp)
    | some a =>
      rw [ha] at h
      cases hc : convDict f rest with
      | none => rw [hc] at h; exact absurd h (by simp)
      | some d' => rw [hc] at h; cases h; simp [ih d' hc]

theorem convDict_isSome (f : TensorLike → Option NDArray)
    (l : List (String × TensorLike)) (h : ∀ kv ∈ l, (f kv.2).isSome) :
    (convDict f l).isSome := by
  induction l with
  | nil => simp [convDict]
  | cons kv rest ih =>
    have h1 := h kv (by simp)
    cases ha : f kv.2 with
    | none => rw [ha] at h1; simp at h1
    | some a =>
      have h2 : (convDict f rest).isSome := ih fun kv' hkv' => h kv' (by simp [hkv'])
      cases hc : convDict f rest with
      | none => rw [hc] at h2; simp at h2
      | some d => simp [convDict, ha, hc]

theorem convDict_mem (f : TensorLike → Option NDArray)
    (l : List (String × TensorLike)) (d : List (String × NDArray))
    (h : convDict f l = some d) :
    ∀ kv ∈ l, ∃ a, f kv.2 = some a ∧ (kv.1, a) ∈ d := by
  induction l generalizing d with
  | nil => intro kv hkv; simp at hkv
  | cons kv0 rest ih =>
    simp only [convDict] at h
    cases ha : f kv0.2 with
    | none => rw [ha] at h; exact absurd h (by simp)
    | some a =>
      rw [ha] at h
      cases hc : convDict f rest with
      | none => rw [hc] at h; exact absurd h (by simp)
      | some d' =>
        rw [hc] at h; cases h
        intro kv hkv
        rcases List.mem_cons.mp hkv with rfl | hkv'
        · exact ⟨a, ha, by simp⟩
        · rcases ih d' hc kv hkv' with ⟨bv, hb1, hb2⟩
          exact ⟨bv, hb1, by simp [hb2]⟩

theorem setKey_of_not_mem (d : List (String × NDArray)) (k : String)
    (a : NDArray) (h : k ∉ d.map Prod.fst) : setKey d k a = d := by
  induction d with
  | nil => rfl
  | cons kv rest ih =>
    simp only [List.map_cons, List.mem_cons, not_or] at h
    simp only [setKey, List.map_cons]
    rw [if_neg fun he => h.1 he.symm]
    have := ih h.2
    simp only [setKey] at this
    rw [this]

theorem overwriteLoop_cons (k : String) (a : NDArray)
    (d : List (String × NDArray)) (src : List (String × TensorLike))
    (h : k ∉ src.map Prod.fst) :
    overwriteLoop ((k, a) :: d) src =
      (overwriteLoop d src).map fun l => (k, a) :: l := by
  induction src generalizing d with
  | nil => rfl
  | cons kv rest ih =>
    simp only [List.map_cons, List.mem_cons, not_or] at h
    simp only [overwriteLoop]
    cases hc : capabilityConvert kv.2 with
    | none => rfl
    | some bv =>
      have hset : setKey ((k, a) :: d) kv.1 bv = (k, a) :: setKey d kv.1 bv := by
        simp only [setKey, List.map_cons]
        rw [if_neg fun he => h.1 he]
      dsimp only
      rw [hset]
      exact ih (setKey d kv.1 bv) h.2

theorem overwriteLoop_eq_convDict (d : List (String × NDArray))
    (src : List (String × TensorLike))
    (hkeys : d.map Prod.fst = src.map Prod.fst)
    (hnodup : (src.map Prod.fst).Nodup) :
    overwriteLoop d src = convDict capabilityConvert src := by
  induction src generalizing d with
  | nil =>
    cases d with
    | nil => rfl
    | cons kv rest => simp at hkeys
  | cons kv rest ih =>
    cases d with
    | nil => simp at hkeys
    | cons kv0 d' =>
      simp only [List.map_cons, List.cons.injEq] at hkeys
      obtain ⟨hk, hkeys'⟩ := hkeys
      simp only [List.map_cons, List.nodup_cons] at hnodup
      obtain ⟨hnotin, hnodup'⟩ := hnodup
      simp only [overwriteLoop, convDict]
      cases hc : capabilityConvert kv.2 with
      | none => rfl
      | some a =>
        have h1 : setKey (kv0 :: d') kv.1 a = (kv.1, a) :: setKey d' kv.1 a := by
          simp only [setKey, List.map_cons]
          rw [if_pos hk]
        have h2 : setKey d' kv.1 a = d' :=
          setKey_of_not_mem d' kv.1 a (by rw [hkeys']; exact hnotin)
        dsimp only
        rw [h1, h2, overwriteLoop_cons kv.1 a d' rest hnotin, ih d' hkeys' hnodup']
        cases hc' : convDict capabilityConvert rest <;> rfl

theorem processSample_success (s : Sample)
    (hnodup : (s.pred_pts_seg.map Prod.fst).Nodup)
    (hpred : ∀ kv ∈ s.pred_pts_seg,
      kv.2.hasClone = true ∧ kv.2.hasCpu = true ∧ kv.2.hasNumpy = true ∧
        (kv.2.hasTo = true ∨ kv.2.device = "cpu"))
    (hann : ∀ kv ∈ s.eval_ann_info,
      kv.2.hasClone = true ∧ kv.2.hasCpu = true ∧ kv.2.hasNumpy = true) :
    ∃ pconv aconv, processSample s = some (pconv, aconv) ∧
      (∀ kv ∈ s.pred_pts_seg, (kv.1, NDArray.mk kv.2.data) ∈ pconv) ∧
      (∀ kv ∈ s.eval_ann_info, (kv.1, NDArray.mk kv.2.data) ∈ aconv) := by
  have hpsome : (convDict comprehensionConvert s.pred_pts_seg).isSome :=
    convDict_isSome _ _ fun kv hkv => by
      rcases hpred kv hkv with ⟨h1, h2, h3, _⟩
      rw [comprehensionConvert_eq kv.2 h1 h2 h3]; rfl
  have hasome : (convDict comprehensionConvert s.eval_ann_info).isSome :=
    convDict_isSome _ _ fun kv hkv => by
      rcases hann kv hkv with ⟨h1, h2, h3⟩
      rw [comprehensionConvert_eq kv.2 h1 h2 h3]; rfl
  cases hp : convDict comprehensionConvert s.pred_pts_seg with
  | none => rw [hp] at hpsome; simp at hpsome
  | some d =>
    cases ha : convDict comprehensionConvert s.eval_ann_info with
    | none => rw [ha] at hasome; simp at hasome
    | some aconv =>
      have hkeys := convDict_keys _ _ _ hp
      have hov := overwriteLoop_eq_convDict d s.pred_pts_seg hkeys hnodup
      have hcsome : (convDict capabilityConvert s.pred_pts_seg).isSome :=
        convDict_isSome _ _ fun kv hkv => by
          rcases hpred kv hkv with ⟨h1, _, h3, h4⟩
          rw [capabilityConvert_eq kv.2 h1 h3 h4]; rfl
      cases hcap : convDict capabilityConvert s.pred_pts_seg with
      | none => rw [hcap] at hcsome; simp at hcsome
      | some pconv =>
        refine ⟨pconv, aconv, ?_, ?_, ?_⟩
        · simp only [processSample]
          rw [hp, ha]
          dsimp only
          rw [hov, hcap]
        · intro kv hkv
          rcases convDict_mem _ _ _ hcap kv hkv with ⟨av, ha1, ha2⟩
          rcases hpred kv hkv with ⟨h1, _, h3, h4⟩
          rw [capabilityConvert_eq kv.2 h1 h3 h4] at ha1
          cases ha1
          exact ha2
        · intro kv hkv
          rcases convDict_mem _ _ _ ha kv hkv with ⟨av, ha1, ha2⟩
          rcases hann kv hkv with ⟨h1, h2, h3⟩
          rw [comprehensionConvert_eq kv.2 h1 h2 h3] at ha1
          cases ha1
          exact ha2

theorem convertSamples_isSome (samples : List Sample)
    (h : ∀ s ∈ samples, (processSample s).isSome) :
    (convertSamples samples).isSome := by
  induction samples with
  | nil => simp [convertSamples]
  | cons s rest ih =>
    have h1 := h s (by simp)
    cases hp : processSample s with
    | none => rw [hp] at h1; simp at h1
    | some p =>
      have h2 : (convertSamples rest).isSome := ih fun s' hs' => h s' (by simp [hs'])
      cases hc : convertSamples rest with
      | none => rw [hc] at h2; simp at h2
      | some l => simp [convertSamples, hp, hc]

theorem takeWhile_append_stop (p : Char → Bool) (l r : List Char) (y : Char)
    (hl : ∀ c ∈ l, p c = true) (hy : p y = false) :
    (l ++ y :: r).takeWhile p = l := by
  induction l with
  | nil => simp [List.takeWhile, hy]
  | cons c cs ih =>
    have hc := hl c (by simp)
    simp only [List.cons_append, List.takeWhile, hc]
    show c :: (cs ++ y :: r).takeWhile p = c :: cs
    rw [ih fun c' hc' => hl c' (by simp [hc'])]

theorem afterLastDot_append (a b : List Char) (hb : ∀ c ∈ b, c ≠ '.') :
    afterLastDot (a ++ '.' :: b) = b := by
  unfold afterLastDot
  rw [List.reverse_append, List.reverse_cons]
  rw [List.append_assoc, List.singleton_append]
  rw [takeWhile_append_stop (fun c => decide (c ≠ '.')) b.reverse a.reverse '.'
    (fun c hc => by simp [hb c (List.mem_reverse.mp hc)]) (by simp)]
  exact List.reverse_reverse b

theorem digitChar_isDigit : ∀ k, k < 10 → (digitChar k).isDigit = true := by
  decide

theorem digitChar_ne_dot : ∀ k, k < 10 → digitChar k ≠ '.' := by
  decide

theorem pad4_toList (m : Nat) :
    (pad4 m).toList = [digitChar (m / 1000 % 10), digitChar (m / 100 % 10),
      digitChar (m / 10 % 10), digitChar (m % 10)] :=
  rfl

theorem pad4_ne_dot (m : Nat) : ∀ c ∈ (pad4 m).toList, c ≠ '.' := by
  intro c hc
  rw [pad4_toList] at hc
  have h10 : ∀ k : Nat, k % 10 < 10 := fun k => Nat.mod_lt _ (by omega)
  simp only [List.mem_cons, List.not_mem_nil, or_false] at hc
  obtain rfl | rfl | rfl | rfl := hc
  · exact digitChar_ne_dot _ (h10 _)
  · exact digitChar_ne_dot _ (h10 _)
  · exact digitChar_ne_dot _ (h10 _)
  · exact digitChar_ne_dot _ (h10 _)

theorem string_toList_append (a b : String) :
    (a ++ b).toList = a.toList ++ b.toList :=
  String.data_append a b

theorem afterLastDot_of_pad4 (s1 : String) (m : Nat) :
    afterLastDot (s1 ++ "." ++ pad4 m).toList = (pad4 m).toList := by
  have hdot : (".".toList) = ['.'] := rfl
  have hlist : (s1 ++ "." ++ pad4 m).toList =
      s1.toList ++ '.' :: (pad4 m).toList := by
    rw [string_toList_append, string_toList_append, hdot, List.append_assoc,
      List.singleton_append]
  rw [hlist]
  exact afterLastDot_append s1.toList (pad4 m).toList (pad4_ne_dot m)

theorem format4_fraction_digits (q : ℚ) :
    (afterLastDot (format4 q).toList).length = 4 ∧
    ∀ c ∈ afterLastDot (format4 q).toList, c.isDigit = true := by
  have hshape : format4 q =
      ((if ⌊q * 10000 + 1 / 2⌋ < 0 then "-" else "") ++
          String.mk (natDigits (⌊q * 10000 + 1 / 2⌋.natAbs / 10000))) ++
        "." ++ pad4 (⌊q * 10000 + 1 / 2⌋.natAbs % 10000) := rfl
  rw [hshape, afterLastDot_of_pad4, pad4_toList]
  have h10 : ∀ k : Nat, k % 10 < 10 := fun k => Nat.mod_lt _ (by omega)
  refine ⟨rfl, ?_⟩
  intro c hc
  simp only [List.mem_cons, List.not_mem_nil, or_false] at hc
  obtain rfl | rfl | rfl | rfl := hc
  · exact digitChar_isDigit _ (h10 _)
  · exact digitChar_isDigit _ (h10 _)
  · exact digitChar_isDigit _ (h10 _)
  · exact digitChar_isDigit _ (h10 _)

theorem comprehensionConvertH_extends (h : Heap) (v : HTensor) (h' : Heap)
    (a : HArray) (hc : comprehensionConvertH h v = some (h', a)) :
    (∃ t, h' = h ++ t) ∧ h.length ≤ a.cell := by
  by_cases h1 : v.hasClone
  · cases hg : h[v.cell]? with
    | none => simp [comprehensionConvertH, HTensor.clone, h1, hg] at hc
    | some payload =>
      by_cases h2 : v.hasCpu
      · by_cases h3 : v.hasNumpy
        · simp [comprehensionConvertH, HTensor.clone, HTensor.cpu,
            HTensor.numpy, h1, h2, h3, hg] at hc
          obtain ⟨rfl, rfl⟩ := hc
          exact ⟨⟨[payload], rfl⟩, by simp⟩
        · simp [comprehensionConvertH, HTensor.clone, HTensor.cpu,
            HTensor.numpy, h1, h2, h3, hg] at hc
      · simp [comprehensionConvertH, HTensor.clone, HTensor.cpu, h1, h2, hg] at hc
  · simp [comprehensionConvertH, HTensor.clone, h1] at hc

theorem capabilityConvertH_extends (h : Heap) (v : HTensor) (h' : Heap)
    (a : HArray) (hc : capabilityConvertH h v = some (h', a)) :
    (∃ t, h' = h ++ t) ∧ h.length ≤ a.cell := by
  by_cases h4 : v.hasTo
  · by_cases h1 : v.hasClone
    · cases hg : h[v.cell]? with
      | none =>
        simp [capabilityConvertH, HTensor.toDev, HTensor.clone, h4, h1, hg] at hc
      | some payload =>
        by_cases h3 : v.hasNumpy
        · simp [capabilityConvertH, HTensor.toDev, HTensor.clone,
            HTensor.numpy, h4, h1, h3, hg] at hc
          obtain ⟨rfl, rfl⟩ := hc
          exact ⟨⟨[payload], rfl⟩, by simp⟩
        · simp [capabilityConvertH, HTensor.toDev, HTensor.clone,
            HTensor.numpy, h4, h1, h3, hg] at hc
    · simp [capabilityConvertH, HTensor.toDev, HTensor.clone, h4, h1] at hc
  · by_cases h1 : v.hasClone
    · cases hg : h[v.cell]? with
      | none => simp [capabilityConvertH, HTensor.clone, h4, h1, hg] at hc
      | some payload =>
        by_cases h3 : v.hasNumpy
        · by_cases h5 : v.device = "cpu"
          · simp [capabilityConvertH, HTensor.clone, HTensor.numpy,
              h4, h1, h3, h5, hg] at hc
            obtain ⟨rfl, rfl⟩ := hc
            exact ⟨⟨[payload], rfl⟩, by simp⟩
          · simp [capabilityConvertH, HTensor.clone, HTensor.numpy,
              h4, h1, h3, h5, hg] at hc
        · simp [capabilityConvertH, HTensor.clone, HTensor.numpy,
            h4, h1, h3, hg] at hc
    · simp [capabilityConvertH, HTensor.clone, h4, h1] at hc

theorem convDictH_extends (l : List (String × HTensor)) (h h' : Heap)
    (d : List (String × HArray)) (hc : convDictH h l = some (h', d)) :
    (∃ t, h' = h ++ t) ∧ ∀ kv ∈ d, h.length ≤ kv.2.cell := by
  induction l generalizing h h' d with
  | nil =>
    simp only [convDictH, Option.some.injEq, Prod.mk.injEq] at hc
    obtain ⟨rfl, rfl⟩ := hc
    exact ⟨⟨[], (List.append_nil h).symm⟩, by simp⟩
  | cons kv rest ih =>
    simp only [convDictH] at hc
    cases h1 : comprehensionConvertH h kv.2 with
    | none => rw [h1] at hc; exact absurd hc (by simp)
    | some p1 =>
      obtain ⟨hm, a1⟩ := p1
      rw [h1] at hc
      dsimp only at hc
      cases h2 : convDictH hm rest with
      | none => rw [h2] at hc; exact absurd hc (by simp)
      | some p2 =>
        obtain ⟨hm2, d2⟩ := p2
        rw [h2] at hc
        dsimp only at hc
        simp only [Option.some.injEq, Prod.mk.injEq] at hc
        obtain ⟨rfl, rfl⟩ := hc
        obtain ⟨⟨t1, ht1⟩, ha1⟩ := comprehensionConvertH_extends h kv.2 hm a1 h1
        obtain ⟨⟨t2, ht2⟩, ha2⟩ := ih hm hm2 d2 h2
        have hlen1 : h.length ≤ hm.length := by rw [ht1]; simp
        refine ⟨⟨t1 ++ t2, by rw [ht2, ht1, List.append_assoc]⟩, ?_⟩
        intro kv' hkv'
        rcases List.mem_cons.mp hkv' with rfl | hkv'
        · exact ha1
        · exact le_trans hlen1 (ha2 kv' hkv')

theorem setKeyH_mem (d : List (String × HArray)) (k : String) (a : HArray)
    (kv : String × HArray) (h : kv ∈ setKeyH d k a) : kv = (k, a) ∨ kv ∈ d := by
  unfold setKeyH at h
  rcases List.mem_map.mp h with ⟨e, he, heq⟩
  by_cases hek : e.1 = k
  · rw [if_pos hek] at heq; exact Or.inl heq.symm
  · rw [if_neg hek] at heq; exact Or.inr (heq ▸ he)

theorem overwriteLoopH_fresh (src : List (String × HTensor)) (n : Nat)
    (h : Heap) (d : List (String × HArray)) (h' : Heap)
    (d' : List (String × HArray))
    (hrun : overwriteLoopH h d src = some (h', d'))
    (hn : n ≤ h.length) (hd : ∀ kv ∈ d, n ≤ kv.2.cell) :
    (∃ t, h' = h ++ t) ∧ ∀ kv ∈ d', n ≤ kv.2.cell := by
  induction src generalizing h d with
  | nil =>
    simp only [overwriteLoopH, Option.some.injEq, Prod.mk.injEq] at hrun
    obtain ⟨rfl, rfl⟩ := hrun
    exact ⟨⟨[], (List.append_nil h).symm⟩, hd⟩
  | cons kv rest ih =>
    simp only [overwriteLoopH] at hrun
    cases h1 : capabilityConvertH h kv.2 with
    | none => rw [h1] at hrun; exact absurd hrun (by simp)
    | some p1 =>
      obtain ⟨hm, a1⟩ := p1
      rw [h1] at hrun
      dsimp only at hrun
      obtain ⟨⟨t1, ht1⟩, ha1⟩ := capabilityConvertH_extends h kv.2 hm a1 h1
      have hlen1 : h.length ≤ hm.length := by rw [ht1]; simp
      have hd1 : ∀ kv' ∈ setKeyH d kv.1 a1, n ≤ kv'.2.cell := by
        intro kv' hkv'
        rcases setKeyH_mem d kv.1 a1 kv' hkv' with rfl | hkv'
        · exact le_trans hn ha1
        · exact hd kv' hkv'
      obtain ⟨⟨t2, ht2⟩, hres⟩ :=
        ih hm (setKeyH d kv.1 a1) hrun (le_trans hn hlen1) hd1
      exact ⟨⟨t1 ++ t2, by rw [ht2, ht1, List.append_assoc]⟩, hres⟩

theorem processSampleH_fresh (h : Heap) (s : HSample) (h' : Heap)
    (p : List (String × HArray) × List (String × HArray))
    (hrun : processSampleH h s = some (h', p)) :
    (∃ t, h' = h ++ t) ∧ (∀ kv ∈ p.1, h.length ≤ kv.2.cell) ∧
      ∀ kv ∈ p.2, h.length ≤ kv.2.cell := by
  simp only [processSampleH] at hrun
  cases h1 : convDictH h s.pred_pts_seg with
  | none => rw [h1] at hrun; exact absurd hrun (by simp)
  | some p1 =>
    obtain ⟨hm1, d1⟩ := p1
    rw [h1] at hrun
    dsimp only at hrun
    cases h2 : convDictH hm1 s.eval_ann_info with
    | none => rw [h2] at hrun; exact absurd hrun (by simp)
    | some p2 =>
      obtain ⟨hm2, d2⟩ := p2
      rw [h2] at hrun
      dsimp only at hrun
      cases h3 : overwriteLoopH hm2 d1 s.pred_pts_seg with
      | none => rw [h3] at hrun; exact absurd hrun (by simp)
      | some p3 =>
        obtain ⟨hm3, d3⟩ := p3
        rw [h3] at hrun
        dsimp only at hrun
        simp only [Option.some.injEq, Prod.mk.injEq] at hrun
        obtain ⟨rfl, rfl, rfl⟩ := hrun
        obtain ⟨⟨t1, ht1⟩, hc1⟩ := convDictH_extends s.pred_pts_seg h hm1 d1 h1
        obtain ⟨⟨t2, ht2⟩, hc2⟩ := convDictH_extends s.eval_ann_info hm1 hm2 d2 h2
        have hlen1 : h.length ≤ hm1.length := by rw [ht1]; simp
        have hlen2 : hm1.length ≤ hm2.length := by rw [ht2]; simp
        obtain ⟨⟨t3, ht3⟩, hc3⟩ :=
          overwriteLoopH_fresh s.pred_pts_seg h.length hm2 d1 hm3 d3 h3
            (le_trans hlen1 hlen2) hc1
        refine ⟨⟨t1 ++ t2 ++ t3, ?_⟩, hc3, ?_⟩
        · rw [ht3, ht2, ht1]
          simp [List.append_assoc]
        · intro kv hkv
          exact le_trans hlen1 (hc2 kv hkv)

theorem convertSamplesH_fresh (samples : List HSample) (h h' : Heap)
    (l : List ((List (String × HArray)) × (List (String × HArray))))
    (hrun : convertSamplesH h samples = some (h', l)) :
    (∃ t, h' = h ++ t) ∧ ∀ p ∈ l,
      (∀ kv ∈ p.1, h.length ≤ kv.2.cell) ∧ ∀ kv ∈ p.2, h.length ≤ kv.2.cell := by
  induction samples generalizing h h' l with
  | nil =>
    simp only [convertSamplesH, Option.some.injEq, Prod.mk.injEq] at hrun
    obtain ⟨rfl, rfl⟩ := hrun
    exact ⟨⟨[], (List.append_nil h).symm⟩, by simp⟩
  | cons s rest ih =>
    simp only [convertSamplesH] at hrun
    cases h1 : processSampleH h s with
    | none => rw [h1] at hrun; exact absurd hrun (by simp)
    | some p1 =>
      obtain ⟨hm1, q1⟩ := p1
      rw [h1] at hrun
      dsimp only at hrun
      cases h2 : convertSamplesH hm1 rest with
      | none => rw [h2] at hrun; exact absurd hrun (by simp)
      | some p2 =>
        obtain ⟨hm2, l2⟩ := p2
        rw [h2] at hrun
        dsimp only at hrun
        simp only [Option.some.injEq, Prod.mk.injEq] at hrun
        obtain ⟨rfl, rfl⟩ := hrun
        obtain ⟨⟨t1, ht1⟩, hf1, hf2⟩ := processSampleH_fresh h s hm1 q1 h1
        obtain ⟨⟨t2, ht2⟩, hrest⟩ := ih hm1 hm2 l2 h2
        have hlen1 : h.length ≤ hm1.length := by rw [ht1]; simp
        refine ⟨⟨t1 ++ t2, by rw [ht2, ht1, List.append_assoc]⟩, ?_⟩
        intro p hp
        rcases List.mem_cons.mp hp with rfl | hp
        · exact ⟨hf1, hf2⟩
        · obtain ⟨hr1, hr2⟩ := hrest p hp
          exact ⟨fun kv hkv => le_trans hlen1 (hr1 kv hkv),
            fun kv hkv => le_trans hlen1 (hr2 kv hkv)⟩

theorem format4_eval (q : ℚ) (n : ℤ) (d : ℕ)
    (hq : q * 10000 + 1 / 2 = (n : ℚ) / (d : ℚ)) :
    format4 q =
      (if n / (d : ℤ) < 0 then "-" else "") ++
        String.mk (natDigits ((n / (d : ℤ)).natAbs / 10000)) ++ "." ++
        pad4 ((n / (d : ℤ)).natAbs % 10000) := by
  unfold format4
  rw [hq, Rat.floor_intCast_div_natCast n d]

/-! ## The claims -/

/-- C2: `evaluate()` resets the Accumulated Results to empty after computing
the report, so a second `evaluate()` with no intervening `process()` computes
its report over the empty accumulation state. -/
theorem evaluate_resets_accumulated_results {α : Type}
    (computeFn : List ((List (String × NDArray)) × (List (String × NDArray))) →
      α → MetricsReport)
    (st : InstanceSegState) (a b : α) :
    (evaluate computeFn st a).2.1.results = [] ∧
    (evaluate computeFn (evaluate computeFn st a).2.1 b).1 = computeFn [] b :=
  ⟨rfl, rfl⟩

/-- C7: `evaluate` forwards its pass-through arguments verbatim to the
underlying computation and returns the raw Metrics Report it produces, not
the rendered table string (which only goes to the logger). -/
theorem evaluate_returns_raw_report {α : Type}
    (computeFn : List ((List (String × NDArray)) × (List (String × NDArray))) →
      α → MetricsReport)
    (st : InstanceSegState) (a : α) :
    (evaluate computeFn st a).1 = computeFn st.results a ∧
    (evaluate computeFn st a).2.2 =
      "\n" ++ (buildTable (computeFn st.results a)).table :=
  ⟨rfl, rfl⟩

/-- C9: `process` never inspects `data_batch` — two calls on the same state
with the same `data_samples` but arbitrary different batches produce
identical results. -/
theorem process_ignores_data_batch (st : InstanceSegState) (b1 b2 : DataBatch)
    (data_samples : List Sample) :
    process st b1 data_samples = process st b2 data_samples :=
  rfl

/-- C5 counterexample: the constructor does not delegate with `dataset_meta`
and `dist_backend` only — a construction with the extra keyword option
`("nproc", "8")` forwards that option to the base metric as well. -/
theorem init_forwards_extra_kwargs :
    (InstanceSegMetric.init ⟨[]⟩ none none none [("nproc", "8")]).forwarded.extraOptions ≠ [] := by
  decide

/-- C5 (amended): the constructor delegates to the base metric with
`dataset_meta`, `dist_backend` and the extra keyword arguments forwarded
verbatim; the deprecated `collect_device` and `prefix` values are never
forwarded (the forwarded call does not depend on them). -/
theorem init_forwarding (dataset_meta : DatasetMeta)
    (dist_backend collect_device pfx : Option String)
    (kwargs : List (String × String)) :
    (InstanceSegMetric.init dataset_meta dist_backend collect_device pfx
        kwargs).forwarded = ⟨dataset_meta, dist_backend, kwargs⟩ :=
  rfl

/-- C4: any construction with `collect_device` present emits its deprecation
warning exactly once, any construction with `prefix` present emits its
deprecation warning exactly once, neither deprecated value reaches the
forwarded base constructor call, and construction completes normally with
`dataset_meta`, `dist_backend` and the extra keyword options forwarded. -/
theorem init_deprecation_warnings (dataset_meta : DatasetMeta)
    (dist_backend collect_device pfx : Option String)
    (kwargs : List (String × String))
    (hkw : ∀ kv ∈ kwargs, kv.1 ≠ "collect_device" ∧ kv.1 ≠ "prefix") :
    (collect_device.isSome →
      (InstanceSegMetric.init dataset_meta dist_backend collect_device pfx
        kwargs).warnings.count cdWarnMsg = 1) ∧
    (pfx.isSome →
      (InstanceSegMetric.init dataset_meta dist_backend collect_device pfx
        kwargs).warnings.count pfxWarnMsg = 1) ∧
    (∀ kv ∈ (InstanceSegMetric.init dataset_meta dist_backend collect_device
        pfx kwargs).forwarded.extraOptions,
      kv.1 ≠ "collect_device" ∧ kv.1 ≠ "prefix") ∧
    (InstanceSegMetric.init dataset_meta dist_backend collect_device pfx
        kwargs).forwarded = ⟨dataset_meta, dist_backend, kwargs⟩ := by
  refine ⟨?_, ?_, hkw, rfl⟩
  · intro hcd
    cases collect_device with
    | none => simp at hcd
    | some c =>
      cases pfx <;>
        simp [InstanceSegMetric.init, List.count_cons, List.count_nil,
          cdWarnMsg, pfxWarnMsg]
  · intro hp
    cases pfx with
    | none => simp at hp
    | some p =>
      cases collect_device <;>
        simp [InstanceSegMetric.init, List.count_cons, List.count_nil,
          cdWarnMsg, pfxWarnMsg]

/-- C4 witness: a concrete construction with both deprecated arguments
present. -/
theorem init_deprecation_warnings_witness :
    ((some ("gpu") : Option String).isSome →
      (InstanceSegMetric.init ⟨[]⟩ (some ("torch_cuda")) (some ("gpu"))
        (some ("val/")) [("nproc", "8")]).warnings.count cdWarnMsg = 1) ∧
    ((some ("val/") : Option String).isSome →
      (InstanceSegMetric.init ⟨[]⟩ (some ("torch_cuda")) (some ("gpu"))
        (some ("val/")) [("nproc", "8")]).warnings.count pfxWarnMsg = 1) ∧
    (∀ kv ∈ (InstanceSegMetric.init ⟨[]⟩ (some ("torch_cuda")) (some ("gpu"))
        (some ("val/")) [("nproc", "8")]).forwarded.extraOptions,
      kv.1 ≠ "collect_device" ∧ kv.1 ≠ "prefix") ∧
    (InstanceSegMetric.init ⟨[]⟩ (some ("torch_cuda")) (some ("gpu"))
        (some ("val/")) [("nproc", "8")]).forwarded =
      ⟨⟨[]⟩, some ("torch_cuda"), [("nproc", "8")]⟩ :=
  init_deprecation_warnings ⟨[]⟩ (some ("torch_cuda")) (some ("gpu"))
    (some ("val/")) [("nproc", "8")] (by decide)

/-- C3: a successful `process` call with `N` samples grows the Accumulated
Results by exactly `N`, appending the converted (prediction, ground truth)
pairs in sample order. -/
theorem process_appends_in_order (st : InstanceSegState) (b : DataBatch)
    (data_samples : List Sample) (st' : InstanceSegState)
    (h : process st b data_samples = some st') :
    st'.results.length = st.results.length + data_samples.length ∧
    ∃ l, convertSamples data_samples = some l ∧
      st'.results = st.results ++ l ∧
      data_samples.map processSample = l.map some := by
  unfold process at h
  cases hc : convertSamples data_samples with
  | none => rw [hc] at h; exact absurd h (by simp)
  | some l =>
    rw [hc] at h
    cases h
    have hmap := convertSamples_map_some data_samples l hc
    have hlen : data_samples.length = l.length := by
      have := congrArg List.length hmap
      simpa using this
    refine ⟨?_, l, rfl, ?_, hmap⟩
    · simp [InstanceSegState.add, zip_unzip_pairs, hlen]
    · simp [InstanceSegState.add, zip_unzip_pairs]

/-- C6 counterexample: the rows of the rendered table are not all visually
separated — for a report with two classes, no border is drawn between the two
class rows (the source only sets `inner_footing_row_border`, which separates
the footer row alone). -/
theorem table_rows_not_all_separated :
    (buildTable ⟨[("bed", ⟨1, 1, 1⟩), ("chair", ⟨0, 0, 0⟩)], 1, 1, 1⟩).borderBetween 1 = false ∧
    1 + 1 <
      (buildTable ⟨[("bed", ⟨1, 1, 1⟩), ("chair", ⟨0, 0, 0⟩)],
        1, 1, 1⟩).table_data.length :=
  ⟨rfl, by simp [buildTable]⟩

/-- C6 (amended): the rendered table has header row
`[classes, AP_0.25, AP_0.50, AP]`, one row per class whose three AP values
are each formatted with exactly 4 digits after the decimal point regardless
of input precision, a footer row `Overall` with the dataset-wide AP values,
the footer row visually separated from the class rows by a footer border
(adjacent class rows are not separated), and the rendered table is written to
the active logging sink preceded by a newline. -/
theorem evaluate_table_layout {α : Type}
    (computeFn : List ((List (String × NDArray)) × (List (String × NDArray))) →
      α → MetricsReport)
    (st : InstanceSegState) (a : α) :
    (buildTable (evaluate computeFn st a).1).table_data =
      [tableHeader] ++ (evaluate computeFn st a).1.classes.map classRow ++
        [footerRow (evaluate computeFn st a).1] ∧
    tableHeader = ["classes", "AP_0.25", "AP_0.50", "AP"] ∧
    (∀ kv ∈ (evaluate computeFn st a).1.classes,
      classRow kv = [kv.1, format4 kv.2.ap25, format4 kv.2.ap50,
        format4 kv.2.ap]) ∧
    footerRow (evaluate computeFn st a).1 =
      ["Overall", format4 (evaluate computeFn st a).1.all_ap_25,
        format4 (evaluate computeFn st a).1.all_ap_50,
        format4 (evaluate computeFn st a).1.all_ap] ∧
    (∀ q : ℚ, (afterLastDot (format4 q).toList).length = 4 ∧
      ∀ c ∈ afterLastDot (format4 q).toList, c.isDigit = true) ∧
    (buildTable (evaluate computeFn st a).1).borderBetween
      (evaluate computeFn st a).1.classes.length = true ∧
    (evaluate computeFn st a).2.2 =
      "\n" ++ (buildTable (evaluate computeFn st a).1).table := by
  refine ⟨rfl, rfl, fun kv _ => rfl, rfl, fun q => format4_fraction_digits q,
    ?_, rfl⟩
  simp [AsciiTable.borderBetween, buildTable]

/-- C6 witness: a concrete one-class report — the class row with its three
formatted values, and a four-digit fractional part for the value 1/3. -/
theorem evaluate_table_layout_witness :
    classRow ("chair", ⟨1, 1, 1⟩) =
      ["chair", format4 (1 : ℚ), format4 (1 : ℚ), format4 (1 : ℚ)] ∧
    (afterLastDot (format4 (1 / 3 : ℚ)).toList).length = 4 := by
  have h := evaluate_table_layout
    (fun (_ : List ((List (String × NDArray)) × (List (String × NDArray))))
        (_ : Nat) => (⟨[("chair", ⟨1, 1, 1⟩)], 1, 1, 1⟩ : MetricsReport))
    ⟨[]⟩ 0
  exact ⟨h.2.2.1 ("chair", ⟨1, 1, 1⟩) (List.mem_singleton.mpr rfl),
    (h.2.2.2.2.1 (1 / 3)).1⟩

/-- C1 counterexample: a `pred_pts_seg` field whose value lacks the
device-transfer capability (no `to` and no `cpu` method, host-resident
payload, `clone` and `numpy` supported) makes `process` raise inside the
initial dict comprehension (`v.clone().cpu().numpy()`) instead of
succeeding with a direct copy. -/
theorem process_fails_on_field_without_transfer :
    process ⟨[]⟩ ⟨[]⟩
      [⟨[("masks", ⟨[3], "cpu", false, false, true, true⟩)], []⟩] = none := by
  decide

/-- C1 (amended): every field of `pred_pts_seg` and of `eval_ann_info` is
converted to a host-memory array copy and `process` succeeds, provided every
field supports the `clone`/`cpu`/`numpy` chain required by the initial dict
comprehensions (and, for `pred_pts_seg` fields, either has the
device-transfer capability `to` or already resides on the host); a field
lacking the `cpu` method makes `process` raise even when the capability-aware
branch would copy it directly. -/
theorem process_converts_every_field (st : InstanceSegState) (b : DataBatch)
    (data_samples : List Sample)
    (hnodup : ∀ s ∈ data_samples, (s.pred_pts_seg.map Prod.fst).Nodup)
    (hpred : ∀ s ∈ data_samples, ∀ kv ∈ s.pred_pts_seg,
      kv.2.hasClone = true ∧ kv.2.hasCpu = true ∧ kv.2.hasNumpy = true ∧
        (kv.2.hasTo = true ∨ kv.2.device = "cpu"))
    (hann : ∀ s ∈ data_samples, ∀ kv ∈ s.eval_ann_info,
      kv.2.hasClone = true ∧ kv.2.hasCpu = true ∧ kv.2.hasNumpy = true) :
    (process st b data_samples).isSome ∧
    ∀ s ∈ data_samples, ∃ pconv aconv,
      processSample s = some (pconv, aconv) ∧
      (∀ kv ∈ s.pred_pts_seg, (kv.1, NDArray.mk kv.2.data) ∈ pconv) ∧
      (∀ kv ∈ s.eval_ann_info, (kv.1, NDArray.mk kv.2.data) ∈ aconv) := by
  have hsamp : ∀ s ∈ data_samples, ∃ pconv aconv,
      processSample s = some (pconv, aconv) ∧
      (∀ kv ∈ s.pred_pts_seg, (kv.1, NDArray.mk kv.2.data) ∈ pconv) ∧
      (∀ kv ∈ s.eval_ann_info, (kv.1, NDArray.mk kv.2.data) ∈ aconv) :=
    fun s hs => processSample_success s (hnodup s hs) (hpred s hs) (hann s hs)
  refine ⟨?_, hsamp⟩
  have hcs : (convertSamples data_samples).isSome :=
    convertSamples_isSome data_samples fun s hs => by
      rcases hsamp s hs with ⟨p, a, hpa, _, _⟩
      rw [hpa]; rfl
  unfold process
  cases hc : convertSamples data_samples with
  | none => rw [hc] at hcs; simp at hcs
  | some l => rfl

/-- C1 witness: a concrete successful call converting one sample with a
device-resident prediction field and ground-truth field. -/
theorem process_converts_every_field_witness :
    (process ⟨[]⟩ ⟨[]⟩
      [⟨[("masks", ⟨[1, 2], "cuda", true, true, true, true⟩)],
        [("gt", ⟨[9], "cuda", true, true, true, true⟩)]⟩]).isSome ∧
    ∀ s ∈ [(⟨[("masks", ⟨[1, 2], "cuda", true, true, true, true⟩)],
        [("gt", ⟨[9], "cuda", true, true, true, true⟩)]⟩ : Sample)],
      ∃ pconv aconv, processSample s = some (pconv, aconv) ∧
        (∀ kv ∈ s.pred_pts_seg, (kv.1, NDArray.mk kv.2.data) ∈ pconv) ∧
        (∀ kv ∈ s.eval_ann_info, (kv.1, NDArray.mk kv.2.data) ∈ aconv) :=
  process_converts_every_field ⟨[]⟩ ⟨[]⟩
    [⟨[("masks", ⟨[1, 2], "cuda", true, true, true, true⟩)],
      [("gt", ⟨[9], "cuda", true, true, true, true⟩)]⟩]
    (by decide) (by decide) (by decide)

/-- C8 counterexample: `process` does not behave identically to the
capability-aware-only implementation — on a prediction field that has the
device-transfer capability `to` but no `cpu` method, the per-sample
conversion raises (inside the discarded comprehension) while the
capability-aware conversion alone succeeds. -/
theorem processSample_ne_capability_only :
    processSample ⟨[("masks", ⟨[4], "cuda", true, false, true, true⟩)], []⟩ ≠
      processSampleCapOnly
        ⟨[("masks", ⟨[4], "cuda", true, false, true, true⟩)], []⟩ := by
  decide

/-- C8 (amended): for every sample, whenever the initial dict comprehension
over `pred_pts_seg` succeeds, its result is fully discarded and the finally
accumulated prediction equals the capability-aware conversion of
`pred_pts_seg` alone — the per-sample conversion then agrees exactly with the
capability-aware-only implementation.  (When the comprehension raises, the
two differ, as the counterexample shows.) -/
theorem processSample_eq_capability_only (s : Sample)
    (hnodup : (s.pred_pts_seg.map Prod.fst).Nodup)
    (hsome : (convDict comprehensionConvert s.pred_pts_seg).isSome) :
    processSample s = processSampleCapOnly s := by
  cases hp : convDict comprehensionConvert s.pred_pts_seg with
  | none => rw [hp] at hsome; simp at hsome
  | some d =>
    have hkeys := convDict_keys _ _ _ hp
    have hov := overwriteLoop_eq_convDict d s.pred_pts_seg hkeys hnodup
    simp only [processSample, processSampleCapOnly]
    rw [hp]
    cases ha : convDict comprehensionConvert s.eval_ann_info with
    | none =>
      dsimp only
      cases hcap : convDict capabilityConvert s.pred_pts_seg <;> rfl
    | some aconv =>
      dsimp only
      rw [hov]
      cases hcap : convDict capabilityConvert s.pred_pts_seg <;> rfl

/-- C8 witness: a concrete sample on which the comprehension succeeds and the
per-sample conversion coincides with the capability-aware-only variant. -/
theorem processSample_eq_capability_only_witness :
    processSample ⟨[("masks", ⟨[1, 2], "cuda", true, true, true, true⟩)],
        [("gt", ⟨[9], "cpu", true, true, true, true⟩)]⟩ =
      processSampleCapOnly ⟨[("masks", ⟨[1, 2], "cuda", true, true, true, true⟩)],
        [("gt", ⟨[9], "cpu", true, true, true, true⟩)]⟩ :=
  processSample_eq_capability_only
    ⟨[("masks", ⟨[1, 2], "cuda", true, true, true, true⟩)],
      [("gt", ⟨[9], "cpu", true, true, true, true⟩)]⟩
    (by decide) (by decide)

/-- C10: over the store-passing embedding, a successful `process` call never
writes to any pre-existing heap cell (the inputs, and everything else already
in memory, are unchanged), and every array in the newly accumulated pairs
lives in a cell allocated by a `clone` during the call — so the accumulated
arrays share no memory with any input tensor. -/
theorem process_no_input_mutation (h : Heap) (st : HState) (b : DataBatch)
    (data_samples : List HSample) (h' : Heap) (st' : HState)
    (hrun : processH h st b data_samples = some (h', st'))
    (hvalid : ∀ s ∈ data_samples, ∀ kv ∈ s.pred_pts_seg ++ s.eval_ann_info,
      kv.2.cell < h.length) :
    (∀ i, i < h.length → h'[i]? = h[i]?) ∧
    ∀ p ∈ st'.results, p ∈ st.results ∨
      ((∀ kv ∈ p.1, ∀ s ∈ data_samples,
          ∀ kv' ∈ s.pred_pts_seg ++ s.eval_ann_info, kv.2.cell ≠ kv'.2.cell) ∧
        ∀ kv ∈ p.2, ∀ s ∈ data_samples,
          ∀ kv' ∈ s.pred_pts_seg ++ s.eval_ann_info, kv.2.cell ≠ kv'.2.cell) := by
  unfold processH at hrun
  cases hc : convertSamplesH h data_samples with
  | none => rw [hc] at hrun; exact absurd hrun (by simp)
  | some r =>
    obtain ⟨hm, l⟩ := r
    rw [hc] at hrun
    simp only [Option.map_some', Option.some.injEq, Prod.mk.injEq] at hrun
    obtain ⟨rfl, rfl⟩ := hrun
    obtain ⟨⟨t, ht⟩, hfresh⟩ := convertSamplesH_fresh data_samples h hm l hc
    constructor
    · intro i hi
      rw [ht]
      exact List.getElem?_append_left hi
    · intro p hp
      simp only [zip_unzip_pairs] at hp
      rcases List.mem_append.mp hp with hp | hp
      · exact Or.inl hp
      · refine Or.inr ⟨?_, ?_⟩
        · intro kv hkv s hs kv' hkv'
          have h1 := (hfresh p hp).1 kv hkv
          have h2 := hvalid s hs kv' hkv'
          omega
        · intro kv hkv s hs kv' hkv'
          have h1 := (hfresh p hp).2 kv hkv
          have h2 := hvalid s hs kv' hkv'
          omega

/-- C10 witness: one sample with a device-resident prediction tensor and a
host-resident ground-truth tensor, both referencing cell 0 of a one-cell
heap; the call allocates three clone cells and accumulates arrays in cells 3
and 2. -/
theorem process_no_input_mutation_witness :
    (∀ i, i < ([[5]] : Heap).length →
      (([[5], [5], [5], [5]] : Heap))[i]? = (([[5]] : Heap))[i]?) ∧
    ∀ p ∈ (HState.mk [([("m", ⟨3⟩)], [("g", ⟨2⟩)])]).results,
      p ∈ (HState.mk []).results ∨
      ((∀ kv ∈ p.1, ∀ s ∈ [HSample.mk [("m", ⟨0, "cuda", true, true, true, true⟩)]
            [("g", ⟨0, "cpu", true, true, true, true⟩)]],
          ∀ kv' ∈ s.pred_pts_seg ++ s.eval_ann_info, kv.2.cell ≠ kv'.2.cell) ∧
        ∀ kv ∈ p.2, ∀ s ∈ [HSample.mk [("m", ⟨0, "cuda", true, true, true, true⟩)]
            [("g", ⟨0, "cpu", true, true, true, true⟩)]],
          ∀ kv' ∈ s.pred_pts_seg ++ s.eval_ann_info, kv.2.cell ≠ kv'.2.cell) :=
  process_no_input_mutation [[5]] ⟨[]⟩ ⟨[]⟩
    [HSample.mk [("m", ⟨0, "cuda", true, true, true, true⟩)]
      [("g", ⟨0, "cpu", true, true, true, true⟩)]]
    [[5], [5], [5], [5]] ⟨[([("m", ⟨3⟩)], [("g", ⟨2⟩)])]⟩
    (by decide) (by decide)

/-- C3 witness: a concrete one-sample batch appended to a previously empty
accumulation state. -/
theorem process_appends_in_order_witness :
    (InstanceSegState.mk [([("masks", NDArray.mk [7])], [("gt", NDArray.mk [7])])]).results.length =
      (InstanceSegState.mk []).results.length +
        [Sample.mk [("masks", ⟨[7], "cuda", true, true, true, true⟩)]
          [("gt", ⟨[7], "cuda", true, true, true, true⟩)]].length ∧
    ∃ l, convertSamples
        [Sample.mk [("masks", ⟨[7], "cuda", true, true, true, true⟩)]
          [("gt", ⟨[7], "cuda", true, true, true, true⟩)]] = some l ∧
      (InstanceSegState.mk [([("masks", NDArray.mk [7])], [("gt", NDArray.mk [7])])]).results =
        (InstanceSegState.mk []).results ++ l ∧
      [Sample.mk [("masks", ⟨[7], "cuda", true, true, true, true⟩)]
          [("gt", ⟨[7], "cuda", true, true, true, true⟩)]].map processSample =
        l.map some :=
  process_appends_in_order ⟨[]⟩ ⟨[]⟩
    [Sample.mk [("masks", ⟨[7], "cuda", true, true, true, true⟩)]
      [("gt", ⟨[7], "cuda", true, true, true, true⟩)]]
    ⟨[([("masks", ⟨[7]⟩)], [("gt", ⟨[7]⟩)])]⟩ (by decide)
